import Mathlib

/-!
Verification development for the `codump` tool (`src/main.rs`).

The file gives a shallow embedding of the program's core: the language
classifier (`language_for_extension`, `detect_shebang`, `detect_special_file`,
the `LANG_MAP` table), the directory walk / tree builder / file selector
(`generate_tree_view`, modelling the `walkdir` iteration with
`filter_entry`, `min_depth(1)` and `follow_links(false)`), and the dump
assembler (`generate_dump`).  File systems are modelled as finite trees of
nodes; fallible operations (unlistable directory, unreadable metadata,
unreadable file content) are modelled with `Option`/`Except`.  Machine
integers of the source (`u64`/`usize` sizes) are modelled as `Nat`; all the
arithmetic involved (`len / 1024`, comparisons) is far from any overflow
boundary for the sizes in question, and the source performs no wrapping
arithmetic.
-/

namespace Codump

/-- Prefix test on character lists (models `str::starts_with`). -/
def leadsWith : List Char → List Char → Bool
  | [], _ => true
  | _ :: _, [] => false
  | p :: ps, c :: cs => p == c && leadsWith ps cs

/-- Substring test on character lists (models `str::contains` for patterns). -/
def containsSub : List Char → List Char → Bool
  | [], pat => leadsWith pat []
  | c :: rest, pat => leadsWith pat (c :: rest) || containsSub rest pat

/-- `str::starts_with` on strings. -/
def strLeads (s pre : String) : Bool := leadsWith pre.toList s.toList

/-- `str::contains` (substring search) on strings. -/
def strContains (s pat : String) : Bool := containsSub s.toList pat.toList

/-- `str::to_lowercase` restricted to the ASCII fragment, which is the only
fragment exercised by file extensions in this development. -/
def lowerStr (s : String) : String := String.mk (s.toList.map Char.toLower)

/-- Split a character list at `/` separators (used for path components). -/
def splitSlash : List Char → List (List Char)
  | [] => [[]]
  | c :: rest =>
    match splitSlash rest with
    | [] => [[]]
    | g :: gs => if c = '/' then [] :: g :: gs else (c :: g) :: gs

/-- The path components of a relative path string. -/
def pathComponents (s : String) : List String :=
  (splitSlash s.toList).map String.mk

/-- The final path component (basename) of a relative path. -/
def lastComponent (s : String) : String :=
  ((splitSlash s.toList).getLast?).map String.mk |>.getD s

/-- `std::path::Path::extension` on a file name, at the level of character
lists: `None` when the name is `..`, contains no `.`, or its only `.` is the
leading character; otherwise the part after the final `.`. -/
def rustExtensionList (cs : List Char) : Option (List Char) :=
  if cs = ['.', '.'] then none
  else if (cs.reverse.takeWhile (fun c => !(c == '.'))).length = cs.reverse.length then
    none
  else if (cs.reverse.takeWhile (fun c => !(c == '.'))).length + 1 = cs.reverse.length then
    none
  else some (cs.reverse.takeWhile (fun c => !(c == '.'))).reverse

/-- `std::path::Path::extension` (equally `camino::Utf8Path::extension`) on a
file name. -/
def rustExtension (s : String) : Option String :=
  (rustExtensionList s.toList).map String.mk

/-- The extension string the program computes for a file name:
`extension().unwrap_or("").to_lowercase()`. -/
def extLower (s : String) : String := lowerStr ((rustExtension s).getD "")

/-- The static `phf` extension-to-tag table `LANG_MAP` of the source,
transcribed entry for entry. -/
def LANG_MAP : List (String × String) :=
  [("rs", "rust"), ("go", "go"), ("c", "c"), ("cpp", "cpp"), ("cc", "cpp"),
   ("cxx", "cpp"), ("h", "c"), ("hpp", "cpp"), ("hxx", "cpp"),
   ("js", "javascript"), ("ts", "typescript"), ("jsx", "jsx"), ("tsx", "tsx"),
   ("html", "html"), ("css", "css"), ("scss", "scss"), ("sass", "scss"),
   ("less", "less"), ("java", "java"), ("kt", "kotlin"), ("kts", "kotlin"),
   ("scala", "scala"), ("groovy", "groovy"), ("py", "python"), ("rb", "ruby"),
   ("php", "php"), ("cs", "csharp"), ("swift", "swift"), ("pl", "perl"),
   ("pm", "perl"), ("lua", "lua"), ("ex", "elixir"), ("exs", "elixir"),
   ("elm", "elm"), ("hs", "haskell"), ("erl", "erlang"), ("fs", "fsharp"),
   ("sh", "bash"), ("bash", "bash"), ("zsh", "bash"), ("fish", "fish"),
   ("ps1", "powershell"), ("json", "json"), ("toml", "toml"),
   ("yaml", "yaml"), ("yml", "yaml"), ("xml", "xml"), ("ini", "ini"),
   ("conf", "conf"), ("properties", "properties"), ("sql", "sql"),
   ("graphql", "graphql"), ("gql", "graphql"), ("prisma", "prisma"),
   ("md", "markdown"), ("markdown", "markdown"), ("rst", "rst"),
   ("txt", "text"), ("csv", "csv"), ("org", "org")]

/-- Whitespace class of the regex `\s` (ASCII fragment). -/
def wsChar (c : Char) : Bool :=
  c == ' ' || c == '\t' || c == '\n' || c == '\r' || c == '\x0b' || c == '\x0c'

/-- Word-character class of the regex `\w` (ASCII fragment). -/
def wordChar (c : Char) : Bool := c.isAlphanum || c == '_'

/-- The capture of `/.*/(\w+)` with a greedy `.*`: the maximal word run
following the rightmost `/` that is immediately followed by a word
character. -/
def lastSlashWord : List Char → Option (List Char)
  | [] => none
  | '/' :: rest =>
    match lastSlashWord rest with
    | some r => some r
    | none =>
      let w := rest.takeWhile wordChar
      if w.length = 0 then none else some w
  | _ :: rest => lastSlashWord rest

/-- The capture group of the shebang regex
`^#!\s*/usr/bin/env\s+(\w+)|^#!\s*/.*/(\w+)` on one line, with the regex
crate's leftmost-first alternation semantics. -/
def shebangCapture (cs : List Char) : Option (List Char) :=
  match cs with
  | '#' :: '!' :: rest =>
    let body := rest.dropWhile wsChar
    let envPat := "/usr/bin/env".toList
    let fromEnv :=
      if leadsWith envPat body then
        let t := body.drop envPat.length
        let sp := t.takeWhile wsChar
        if sp.length = 0 then none
        else
          let w := (t.drop sp.length).takeWhile wordChar
          if w.length = 0 then none else some w
      else none
    match fromEnv with
    | some w => some w
    | none =>
      match body with
      | '/' :: tl => lastSlashWord tl
      | _ => none
  | _ => none

/-- First line of a string: up to the first `\n`, with one trailing `\r`
stripped (models `str::lines().next()`). -/
def takeUntilNl : List Char → List Char
  | [] => []
  | c :: rest => if c = '\n' then [] else c :: takeUntilNl rest

/-- Strip one trailing carriage return. -/
def stripCr (l : List Char) : List Char :=
  match l.getLast? with
  | some '\r' => l.dropLast
  | _ => l

/-- The interpreter-name-to-tag match of `detect_shebang`. -/
def interpreterTag (n : String) : String :=
  match n with
  | "python3" => "python"
  | "python" => "python"
  | "ruby" => "ruby"
  | "node" => "javascript"
  | "nodejs" => "javascript"
  | "bash" => "bash"
  | "sh" => "bash"
  | "perl" => "perl"
  | "php" => "php"
  | "lua" => "lua"
  | "Rscript" => "r"
  | _ => ""

/-- `detect_shebang` of the source: regex capture on the first line, then the
interpreter table. -/
def detect_shebang (content : String) : String :=
  match shebangCapture (stripCr (takeUntilNl content.toList)) with
  | some w => interpreterTag (String.mk w)
  | none => ""

/-- `detect_special_file` of the source: content markers for extensionless
files. -/
def detect_special_file (content : String) : String :=
  if strContains content "FROM " then "dockerfile"
  else if strContains content "JAVA_HOME" then "properties"
  else ""

/-- `language_for_extension` of the source: `LANG_MAP` lookup, else shebang
sniffing when the content starts with `#!`, else special-file content
sniffing when the extension is empty, else the empty tag. -/
def language_for_extension (ext : String) (content : String) : String :=
  match LANG_MAP.lookup ext with
  | some l => l
  | none =>
    if strLeads content "#!" then detect_shebang content
    else if ext = "" then detect_special_file content
    else ""

/-- A node of the scanned file system.  A file carries its stat size
(`none` when `entry.metadata()` fails) and its content bytes (`none` when
opening/reading the file fails); a directory carries its children (`none`
when the directory cannot be listed); symlinks are never followed. -/
inductive FsNode where
  | file (name : String) (meta : Option Nat) (content : Option (List Nat))
  | dir (name : String) (children : Option (List FsNode))
  | symlink (name : String)

/-- Basename of a node. -/
def nodeName : FsNode → String
  | .file n _ _ => n
  | .dir n _ => n
  | .symlink n => n

/-- Kind of a yielded walk entry, as the loop body distinguishes it:
`entry.file_type().is_file()` (with the stat size that `entry.metadata()`
would return), `is_dir()`, or `entry.path_is_symlink()`. -/
inductive EKind where
  | file (meta : Option Nat)
  | dir
  | symlink
deriving DecidableEq

/-- One entry yielded by the `walkdir` iterator: basename, path relative to
the scan root, depth, kind. -/
structure REntry where
  name : String
  relPath : String
  depth : Nat
  kind : EKind
deriving DecidableEq

/-- An item of the walk stream: an entry, or an `Err` item as `walkdir`
yields when a directory cannot be listed. -/
inductive WalkItem where
  | ok (e : REntry)
  | err
deriving DecidableEq

/-- The `filter_entry` predicate's test (negated):
`exclude_dirs.iter().any(|d| name == *d)`. -/
def excludedName (excl : List String) (n : String) : Bool := excl.contains n

/-- Join a relative-path prefix with a basename. -/
def relJoin (pre n : String) : String := if pre = "" then n else pre ++ "/" ++ n

mutual
/-- The stream of items the filtered `walkdir` iterator yields for one node
(`min_depth(1)`, `follow_links(false)`, `filter_entry` on the basename):
an entry whose basename matches an excluded name is not yielded and, for a
directory, not descended into; an unlistable directory yields its own entry
followed by an `Err` item. -/
def walkNode (excl : List String) (pre : String) (d : Nat) : FsNode → List WalkItem
  | .file n m _ =>
    if excludedName excl n then [] else [.ok ⟨n, relJoin pre n, d, .file m⟩]
  | .symlink n =>
    if excludedName excl n then [] else [.ok ⟨n, relJoin pre n, d, .symlink⟩]
  | .dir n none =>
    if excludedName excl n then []
    else [.ok ⟨n, relJoin pre n, d, .dir⟩, .err]
  | .dir n (some cs) =>
    if excludedName excl n then []
    else .ok ⟨n, relJoin pre n, d, .dir⟩ :: walkList excl (relJoin pre n) (d + 1) cs

def walkList (excl : List String) (pre : String) (d : Nat) : List FsNode → List WalkItem
  | [] => []
  | n :: rest => walkNode excl pre d n ++ walkList excl pre d rest
end

/-- The whole event stream of a scan: the root's children in order, or a
single `Err` item when the root cannot be listed. -/
def eventsOf (excl : List String) (root : Option (List FsNode)) : List WalkItem :=
  match root with
  | none => [.err]
  | some cs => walkList excl "" 1 cs

/-- The scan configuration: accepted extensions, max file size in KB,
excluded directory names, max file count. -/
structure Cfg where
  exts : List String
  maxKb : Nat
  excl : List String
  maxFiles : Nat

/-- `entry.path_is_symlink()`. -/
def isSymlinkE (e : REntry) : Bool :=
  match e.kind with
  | .symlink => true
  | _ => false

/-- The loop's redundant exclusion test:
`entry.depth() > 0 && exclude_dirs.iter().any(|d| file_name == *d)`. -/
def isExcludedE (cfg : Cfg) (e : REntry) : Bool :=
  decide (0 < e.depth) && excludedName cfg.excl e.name

/-- `"  ".repeat(depth - 1)`. -/
def indentOf (d : Nat) : String := String.join (List.replicate (d - 1) "  ")

/-- The connector glyph: `"├── "` at depth 1, `"└── "` deeper. -/
def connectorOf (d : Nat) : String := if d = 1 then "├── " else "└── "

/-- The tree line pushed for a selected file. -/
def entryFileLine (e : REntry) (len : Nat) : String :=
  indentOf e.depth ++ connectorOf e.depth ++ e.relPath ++ " [" ++
    toString (len / 1024) ++ "kb]\n"

/-- The tree line pushed for a directory. -/
def entryDirLine (e : REntry) : String :=
  indentOf e.depth ++ connectorOf e.depth ++ e.relPath ++ "/\n"

/-- `Utf8Path::new(path).file_name()`: the last path component, unless it is
empty, `.` or `..`. -/
def utf8FileName (p : String) : Option String :=
  match ((pathComponents p).filter (fun c => !(c == "") && !(c == "."))).getLast? with
  | none => none
  | some c => if c = ".." then none else some c

/-- The root line `{base}/` of the tree text. -/
def rootLineOf (path : String) : String := ((utf8FileName path).getD path) ++ "/\n"

/-- The `for entry in walker` loop of `generate_tree_view`: `entry?`
propagates an `Err` item; symlinks are skipped with a warning; the redundant
exclusion test skips; the loop breaks when `file_count >= max_files`; a file
entry reads its metadata (`?` propagates failure) and is rendered and
selected when its lowercased extension is accepted and its truncated size in
KB is within bound; a directory entry is always rendered. -/
def treeLoop (cfg : Cfg) : List WalkItem → Nat → String → List String →
    Except Unit (String × List String)
  | [], _, tree, files => .ok (tree, files)
  | .err :: _, _, _, _ => .error ()
  | .ok e :: rest, count, tree, files =>
    if isSymlinkE e then treeLoop cfg rest count tree files
    else if isExcludedE cfg e then treeLoop cfg rest count tree files
    else if cfg.maxFiles ≤ count then .ok (tree, files)
    else
      match e.kind with
      | .file none => .error ()
      | .file (some len) =>
        if cfg.exts.contains (extLower e.name) && decide (len / 1024 ≤ cfg.maxKb) then
          treeLoop cfg rest (count + 1) (tree ++ entryFileLine e len)
            (files ++ [e.relPath])
        else treeLoop cfg rest count tree files
      | .dir => treeLoop cfg rest count (tree ++ entryDirLine e) files
      | .symlink => treeLoop cfg rest count tree files

/-- `generate_tree_view` of the source: root line, then the filtered walk
processed by the loop. -/
def generate_tree_view (path : String) (root : Option (List FsNode)) (cfg : Cfg) :
    Except Unit (String × List String) :=
  treeLoop cfg (eventsOf cfg.excl root) 0 (rootLineOf path) []

/-- Continuation byte test of the UTF-8 decoder: `0x80..=0xBF`. -/
def utf8Cont (b : Nat) : Bool := 128 ≤ b && b ≤ 191

/-- Admissible first continuation byte of a three-byte sequence (excludes
overlong encodings and surrogates, as `String::from_utf8` does). -/
def utf8ThreeOk (b b1 : Nat) : Bool :=
  (b == 224 && 160 ≤ b1 && b1 ≤ 191) ||
  (225 ≤ b && b ≤ 236 && utf8Cont b1) ||
  (b == 237 && 128 ≤ b1 && b1 ≤ 159) ||
  (238 ≤ b && b ≤ 239 && utf8Cont b1)

/-- Admissible first continuation byte of a four-byte sequence (excludes
overlong encodings and code points above `U+10FFFF`). -/
def utf8FourOk (b b1 : Nat) : Bool :=
  (b == 240 && 144 ≤ b1 && b1 ≤ 191) ||
  (241 ≤ b && b ≤ 243 && utf8Cont b1) ||
  (b == 244 && 128 ≤ b1 && b1 ≤ 143)

/-- Strict UTF-8 decoding of a byte list to characters, `none` on any
invalid sequence — the validation performed by `String::from_utf8`. -/
def utf8Decode : List Nat → Option (List Char)
  | [] => some []
  | b :: rest =>
    if b < 128 then (utf8Decode rest).map (Char.ofNat b :: ·)
    else if 194 ≤ b && b ≤ 223 then
      match rest with
      | b1 :: rest1 =>
        if utf8Cont b1 then
          (utf8Decode rest1).map (Char.ofNat ((b - 192) * 64 + (b1 - 128)) :: ·)
        else none
      | [] => none
    else if 224 ≤ b && b ≤ 239 then
      match rest with
      | b1 :: b2 :: rest2 =>
        if utf8ThreeOk b b1 && utf8Cont b2 then
          (utf8Decode rest2).map
            (Char.ofNat ((b - 224) * 4096 + (b1 - 128) * 64 + (b2 - 128)) :: ·)
        else none
      | _ => none
    else if 240 ≤ b && b ≤ 244 then
      match rest with
      | b1 :: b2 :: b3 :: rest3 =>
        if utf8FourOk b b1 && utf8Cont b2 && utf8Cont b3 then
          (utf8Decode rest3).map
            (Char.ofNat ((b - 240) * 262144 + (b1 - 128) * 4096 +
              (b2 - 128) * 64 + (b3 - 128)) :: ·)
        else none
      | _ => none
    else none

/-- `String::from_utf8` on a byte buffer. -/
def utf8DecodeStr (bs : List Nat) : Option String := (utf8Decode bs).map String.mk

/-- UTF-8 bytes of an ASCII string (used to state concrete inputs). -/
def strBytes (s : String) : List Nat := s.toList.map Char.toNat

/-- Resolve a component path inside a list of sibling nodes. -/
def resolveNode : List FsNode → List String → Option FsNode
  | _, [] => none
  | nodes, [c] => nodes.find? (fun n => nodeName n == c)
  | nodes, c :: rest =>
    match nodes.find? (fun n => nodeName n == c) with
    | some (.dir _ (some cs)) => resolveNode cs rest
    | _ => none

/-- `fs::File::open(base.join(relative_path))` followed by `read_to_end`:
the bytes of the file at a selected relative path, `Err` when the path does
not resolve to a file or the file cannot be read. -/
def readFileBytes (root : Option (List FsNode)) (rel : String) :
    Except Unit (List Nat) :=
  match root with
  | none => .error ()
  | some nodes =>
    match resolveNode nodes (pathComponents rel) with
    | some (.file _ _ (some bs)) => .ok bs
    | _ => .error ()

/-- The per-file closure of `generate_dump`'s `par_iter().map(...)`: read
the bytes (`?` propagates failure), decode UTF-8 (an invalid file yields the
empty block with a warning), classify, and format the block. -/
def fileDump (root : Option (List FsNode)) (rel : String) : Except Unit String :=
  match readFileBytes root rel with
  | .error e => .error e
  | .ok bs =>
    match utf8DecodeStr bs with
    | none => .ok ""
    | some content =>
      let ext := extLower (lastComponent rel)
      let lang := language_for_extension ext content
      .ok ("# file: " ++ rel ++ "\n\n```" ++ lang ++ "\n" ++ content ++ "\n```\n\n")

/-- `collect::<Result<Vec<String>>>()` over the per-file blocks, in selection
order, failing if any block fails. -/
def collectBlocks (root : Option (List FsNode)) : List String → Except Unit (List String)
  | [] => .ok []
  | p :: ps =>
    match fileDump root p with
    | .error e => .error e
    | .ok s =>
      match collectBlocks root ps with
      | .error e => .error e
      | .ok rest => .ok (s :: rest)

/-- `generate_dump` of the source: tree view (`?` propagates failure), the
structure header, and the concatenated per-file blocks (`?` propagates any
block failure). -/
def generate_dump (path : String) (root : Option (List FsNode)) (cfg : Cfg) :
    Except Unit String :=
  match generate_tree_view path root cfg with
  | .error e => .error e
  | .ok (tree, files) =>
    match collectBlocks root files with
    | .error e => .error e
    | .ok blocks =>
      .ok ("# project structure\n\n" ++ tree ++ "\n\n" ++ String.join blocks)

/-- The block a selected file contributes to the assembled document (empty
for a non-UTF-8 file); meaningful when the file is readable. -/
def blockOf (root : Option (List FsNode)) (rel : String) : String :=
  match fileDump root rel with
  | .ok s => s
  | .error _ => ""

/-- Whether an `Except` value is a success. -/
def exOk : Except Unit (List Nat) → Bool
  | .ok _ => true
  | .error _ => false

/-- The walk items that the loop selects as files: a non-symlink,
non-excluded file entry with readable metadata, accepted lowercased
extension, and truncated size within bound. -/
def qualifies (cfg : Cfg) : WalkItem → Bool
  | .err => false
  | .ok e =>
    !(isSymlinkE e) && !(isExcludedE cfg e) &&
      (match e.kind with
       | .file (some len) =>
         cfg.exts.contains (extLower e.name) && decide (len / 1024 ≤ cfg.maxKb)
       | _ => false)

/-- The relative paths of the qualifying file items, in walk order. -/
def qualPaths (cfg : Cfg) (evs : List WalkItem) : List String :=
  evs.filterMap (fun w =>
    match w with
    | .ok e => if qualifies cfg (.ok e) then some e.relPath else none
    | .err => none)

/-- The document that claim C10 describes for the run over `c10Root` below,
assembled literally from the claim's words: the header line
`# project structure`, a blank line, the tree text, a blank line, then for
the selected file the block consisting of the header `# file: a.rs`, a blank
line, a fence opened with the classifier's tag, the raw file content, a
closing fence, and a blank-line separator. -/
def specClaimDocC10 : String :=
  "# project structure\n" ++ "\n" ++ "r/\n├── a.rs [0kb]\n" ++ "\n" ++
    "# file: a.rs\n" ++ "\n" ++ "```rust\n" ++ "let x = 1" ++ "\n```\n" ++ "\n"

/-- Concrete root for the C10 counterexample: a single selected file. -/
def c10Root : Option (List FsNode) :=
  some [FsNode.file "a.rs" (some 3) (some (strBytes "let x = 1"))]

/-- Concrete configuration accepting `rs` files with no exclusions. -/
def cfgRs : Cfg := ⟨["rs"], 100, [], 1000⟩

/-- Concrete root for the C9 witness: a selected file with invalid UTF-8
content (the lone byte `0xFF`) next to a readable ASCII file. -/
def c9Root : Option (List FsNode) :=
  some [FsNode.file "a.rs" (some 1) (some [255]),
        FsNode.file "b.rs" (some 1) (some (strBytes "ok"))]

end Codump

namespace Codump

theorem takeWhile_all_append (p : Char → Bool) :
    ∀ (l1 : List Char) (y : Char) (l2 : List Char),
      (∀ x ∈ l1, p x = true) → p y = false →
      (l1 ++ y :: l2).takeWhile p = l1 := by
  intro l1
  induction l1 with
  | nil => intro y l2 _ hy; simp [List.takeWhile_cons, hy]
  | cons x l ih =>
    intro y l2 hall hy
    have hx : p x = true := hall x (List.mem_cons_self x l)
    simp [List.takeWhile_cons, hx, ih y l2 (fun z hz => hall z (List.mem_cons_of_mem x hz)) hy]

theorem takeWhile_all (p : Char → Bool) :
    ∀ (l : List Char), (∀ x ∈ l, p x = true) → l.takeWhile p = l := by
  intro l
  induction l with
  | nil => intro _; rfl
  | cons x l ih =>
    intro hall
    have hx : p x = true := hall x (List.mem_cons_self x l)
    simp [List.takeWhile_cons, hx, ih (fun z hz => hall z (List.mem_cons_of_mem x hz))]

theorem collectBlocks_ok (root : Option (List FsNode)) :
    ∀ (l : List String), (∀ p ∈ l, exOk (readFileBytes root p) = true) →
      collectBlocks root l = .ok (l.map (blockOf root)) := by
  intro l
  induction l with
  | nil => intro _; rfl
  | cons a l ih =>
    intro hall
    have ha : exOk (readFileBytes root a) = true := hall a (List.mem_cons_self a l)
    cases hr : readFileBytes root a with
    | error e => rw [hr] at ha; simp [exOk] at ha
    | ok bs =>
      have hdump : ∃ s, fileDump root a = .ok s ∧ blockOf root a = s := by
        cases hc : utf8DecodeStr bs with
        | none => exact ⟨"", by simp [fileDump, hr, hc], by simp [blockOf, fileDump, hr, hc]⟩
        | some c =>
          exact ⟨"# file: " ++ a ++ "\n\n```" ++
              language_for_extension (extLower (lastComponent a)) c ++ "\n" ++ c ++
              "\n```\n\n",
            by simp [fileDump, hr, hc], by simp [blockOf, fileDump, hr, hc]⟩
      obtain ⟨s, hs, hb⟩ := hdump
      have hrest := ih (fun z hz => hall z (List.mem_cons_of_mem a hz))
      simp [collectBlocks, hs, hrest, List.map_cons, hb]

theorem collectBlocks_err (root : Option (List FsNode)) :
    ∀ (l : List String) (p : String), p ∈ l → readFileBytes root p = .error () →
      collectBlocks root l = .error () := by
  intro l
  induction l with
  | nil => intro p hp _; cases hp
  | cons a l ih =>
    intro p hp herr
    rcases List.mem_cons.mp hp with h | h
    · subst h
      simp [collectBlocks, fileDump, herr]
    · cases hd : fileDump root a with
      | error e => simp [collectBlocks, hd]
      | ok s => simp [collectBlocks, hd, ih p h herr]

/-- C1 counterexample: with a readable root, a single failing entry aborts
the scan instead of being skipped.  An unlistable subdirectory makes
`generate_tree_view` return an error, and a file whose metadata cannot be
read makes the scan fail even though a further perfectly readable entry
(`b.rs`) follows, so the result is not built from the remaining entries. -/
theorem c1_counterexample :
    generate_tree_view "r" (some [FsNode.dir "sub" none]) cfgRs = .error () ∧
    generate_tree_view "r"
      (some [FsNode.file "a.rs" none (some []),
             FsNode.file "b.rs" (some 1) (some [])]) cfgRs = .error () := by
  exact ⟨rfl, rfl⟩

/-- C1 amended: a per-entry failure during the walk aborts the scan.  For
any configuration with a positive file cap, a root whose first entry is a
non-excluded directory that cannot be listed, or a non-excluded file whose
metadata cannot be read, makes `generate_tree_view` return an error
(whatever entries follow); only symlink entries are skipped non-fatally. -/
theorem c1_amended (cfg : Cfg) (path dn fn : String)
    (r1 r2 : List FsNode) (cont : Option (List Nat))
    (h1 : excludedName cfg.excl dn = false)
    (h2 : excludedName cfg.excl fn = false)
    (h3 : 0 < cfg.maxFiles) :
    generate_tree_view path (some (FsNode.dir dn none :: r1)) cfg = .error () ∧
    generate_tree_view path (some (FsNode.file fn none cont :: r2)) cfg = .error () := by
  have hcap : ¬ (cfg.maxFiles ≤ 0) := by omega
  constructor
  · simp [generate_tree_view, eventsOf, walkList, walkNode, h1, treeLoop,
      isSymlinkE, isExcludedE, hcap]
  · simp [generate_tree_view, eventsOf, walkList, walkNode, h2, treeLoop,
      isSymlinkE, isExcludedE, hcap]

/-- C1 witness: the amended statement at a concrete configuration. -/
theorem c1_witness :
    generate_tree_view "r" (some (FsNode.dir "sub" none :: [])) cfgRs = .error () ∧
    generate_tree_view "r" (some (FsNode.file "a.rs" none (some []) :: [])) cfgRs
      = .error () :=
  c1_amended cfgRs "r" "sub" "a.rs" [] [] (some []) (by decide) (by decide) (by decide)

/-- C2 counterexample: both `a.rs` (unreadable content) and `b.rs` are
selected, yet `generate_dump` aborts with an error instead of skipping
`a.rs` and returning the document with `b.rs`'s block. -/
theorem c2_counterexample :
    generate_tree_view "r"
      (some [FsNode.file "a.rs" (some 1) none,
             FsNode.file "b.rs" (some 1) (some (strBytes "ok"))]) cfgRs
      = .ok ("r/\n├── a.rs [0kb]\n├── b.rs [0kb]\n", ["a.rs", "b.rs"]) ∧
    generate_dump "r"
      (some [FsNode.file "a.rs" (some 1) none,
             FsNode.file "b.rs" (some 1) (some (strBytes "ok"))]) cfgRs
      = .error () := by
  exact ⟨rfl, rfl⟩

/-- C2 amended: a selected file that cannot be opened or read between
selection and assembly makes the whole dump abort with an error; only
invalid-UTF-8 content is skipped with a warning. -/
theorem c2_amended (cfg : Cfg) (path : String) (root : Option (List FsNode))
    (t : String) (fs : List String) (p : String)
    (h1 : generate_tree_view path root cfg = .ok (t, fs))
    (h2 : p ∈ fs)
    (h3 : readFileBytes root p = .error ()) :
    generate_dump path root cfg = .error () := by
  simp [generate_dump, h1, collectBlocks_err root fs p h2 h3]

/-- C2 witness: the amended statement at a concrete input. -/
theorem c2_witness :
    generate_dump "r"
      (some [FsNode.file "a.rs" (some 1) none,
             FsNode.file "b.rs" (some 1) (some (strBytes "ok"))]) cfgRs
      = .error () :=
  c2_amended cfgRs "r" _ "r/\n├── a.rs [0kb]\n├── b.rs [0kb]\n" ["a.rs", "b.rs"]
    "a.rs" rfl (by decide) rfl

/-- C3 counterexample: an extensionless `README` whose content matches the
Dockerfile marker (`FROM `) passes the size and cap checks, yet it is not
selected — the selection tests only extension membership, and the empty
extension is not in the accepted set. -/
theorem c3_counterexample :
    generate_tree_view "r"
      (some [FsNode.file "README" (some 13) (some (strBytes "FROM scratch\n"))])
      ⟨["rs", "py", "md"], 100, ["node_modules"], 1000⟩
      = .ok ("r/\n", []) := by
  exact rfl

/-- C3 amended: a file entry is selected exactly when its lowercased
extension is a member of the accepted set and the truncated size is within
bound (under the cap); the file's content plays no role in selection, so no
shebang/content fallback ever selects a file whose extension is absent from
the set.  Stated for a scan of a single non-excluded file, for every
configuration, size and content. -/
theorem c3_amended (cfg : Cfg) (path name : String) (len : Nat)
    (content : Option (List Nat))
    (h1 : excludedName cfg.excl name = false)
    (h2 : 0 < cfg.maxFiles) :
    (generate_tree_view path (some [FsNode.file name (some len) content]) cfg).map
        (fun r => r.2)
      = .ok (if cfg.exts.contains (extLower name) && decide (len / 1024 ≤ cfg.maxKb)
             then [name] else []) := by
  have hcap : ¬ (cfg.maxFiles ≤ 0) := by omega
  simp [generate_tree_view, eventsOf, walkList, walkNode, h1, treeLoop,
    isSymlinkE, isExcludedE, hcap, relJoin]
  split <;> simp [Except.map]

/-- C3 witness: the amended statement at a concrete input — the README file
of the counterexample is selected exactly when its (empty) extension is
accepted, which it is not. -/
theorem c3_witness :
    (generate_tree_view "r"
      (some [FsNode.file "README" (some 13) (some (strBytes "FROM scratch\n"))])
      ⟨["rs", "py", "md"], 100, ["node_modules"], 1000⟩).map (fun r => r.2)
      = .ok (if (["rs", "py", "md"].contains (extLower "README") &&
                 decide (13 / 1024 ≤ 100)) then ["README"] else []) :=
  c3_amended ⟨["rs", "py", "md"], 100, ["node_modules"], 1000⟩ "r" "README" 13
    (some (strBytes "FROM scratch\n")) (by decide) (by decide)

/-- C4 counterexample: a file (not a directory) whose basename `foo.rs`
exactly matches an excluded name is pruned by `filter_entry` — it appears
neither in the tree text nor among the selected files even though its
extension is accepted — contradicting the claim that only directories are
pruned and such a file remains eligible. -/
theorem c4_counterexample :
    generate_tree_view "r" (some [FsNode.file "foo.rs" (some 10) (some (strBytes "x"))])
      ⟨["rs"], 100, ["foo.rs"], 1000⟩
      = .ok ("r/\n", []) := by
  exact rfl

/-- C4 amended: the exclusion rule prunes an entry exactly when its basename
matches an excluded name, for files, directories and symlinks alike; a
pruned directory contributes no walk items at all, so neither it nor any of
its descendants (at any depth) can be rendered or selected.  Additionally, a
concrete scan shows an excluded `node_modules` subtree entirely absent while
a sibling `src` subtree is rendered and selected. -/
theorem c4_amended :
    (∀ (excl : List String) (pre : String) (d : Nat) (n : FsNode),
       walkNode excl pre d n = [] ↔ excludedName excl (nodeName n) = true) ∧
    generate_tree_view "r"
      (some [FsNode.dir "node_modules"
               (some [FsNode.dir "pkg"
                 (some [FsNode.file "index.rs" (some 10) (some (strBytes "x"))])]),
             FsNode.dir "src"
               (some [FsNode.file "main.rs" (some 10) (some (strBytes "y"))])])
      ⟨["rs"], 100, ["node_modules"], 1000⟩
      = .ok ("r/\n├── src/\n  └── src/main.rs [0kb]\n", ["src/main.rs"]) := by
  constructor
  · intro excl pre d n
    cases n with
    | file name m c =>
      by_cases h : excludedName excl name <;> simp [walkNode, nodeName, h]
    | symlink name =>
      by_cases h : excludedName excl name <;> simp [walkNode, nodeName, h]
    | dir name children =>
      cases children with
      | none => by_cases h : excludedName excl name <;> simp [walkNode, nodeName, h]
      | some cs => by_cases h : excludedName excl name <;> simp [walkNode, nodeName, h]
  · exact rfl

/-- C4 witness: the pruning equivalence applied at concrete entries — a file
named like an excluded name yields no walk item, a file not so named yields
some. -/
theorem c4_witness :
    walkNode ["foo.rs"] "" 1 (FsNode.file "foo.rs" (some 10) (some [])) = [] ∧
    ¬ walkNode [] "" 1 (FsNode.file "bar.rs" (some 10) (some [])) = [] := by
  constructor
  · exact (c4_amended.1 ["foo.rs"] "" 1 (FsNode.file "foo.rs" (some 10) (some []))).mpr
      (by decide)
  · intro h
    have := (c4_amended.1 [] "" 1 (FsNode.file "bar.rs" (some 10) (some []))).mp h
    simp [excludedName] at this

/-- C6 counterexample: the leading-dot file `.gitignore` does not get
extension `gitignore` — its computed extension is empty — and it is not
selected even when `gitignore` is in the accepted extension set. -/
theorem c6_counterexample :
    extLower ".gitignore" ≠ "gitignore" ∧
    generate_tree_view "r" (some [FsNode.file ".gitignore" (some 1) (some [])])
      ⟨["gitignore"], 100, [], 1000⟩
      = .ok ("r/\n", []) := by
  exact ⟨by decide, rfl⟩

/-- C6 amended: the extension used for selection and classification is the
lowercased substring after the final `.` of the basename, except that a
basename with no `.`, or whose only `.` is the leading character, has the
empty extension; in particular `.gitignore` has the empty extension and is
selected only when the empty string is accepted. -/
theorem c6_amended :
    (∀ (a b : List Char), a ≠ [] → '.' ∉ b →
       extLower (String.mk (a ++ '.' :: b)) = String.mk (b.map Char.toLower)) ∧
    (∀ (cs : List Char), '.' ∉ cs → extLower (String.mk cs) = "") ∧
    (∀ (c : List Char), '.' ∉ c → extLower (String.mk ('.' :: c)) = "") ∧
    extLower ".gitignore" = "" ∧
    extLower ".." = "" ∧
    extLower "a.tar.gz" = "gz" := by
  refine ⟨?_, ?_, ?_, by decide, by decide, by decide⟩
  · intro a b ha hnb
    by_cases hne : a ++ '.' :: b = ['.', '.']
    · have hb : b = [] := by
        have hlen := congrArg List.length hne
        simp only [List.length_append, List.length_cons, List.length_nil] at hlen
        have hla : a.length ≠ 0 := fun h => ha (List.length_eq_zero.mp h)
        have hlb : b.length = 0 := by omega
        exact List.length_eq_zero.mp hlb
      subst hb
      rw [hne]
      decide
    have hrev : (a ++ '.' :: b).reverse = b.reverse ++ '.' :: a.reverse := by
      simp [List.reverse_append]
    have hall : ∀ x ∈ b.reverse, (!(x == '.')) = true := by
      intro x hx
      have hxb : x ∈ b := List.mem_reverse.mp hx
      have hxne : x ≠ '.' := fun h => hnb (h ▸ hxb)
      simp [hxne]
    have htw : (b.reverse ++ '.' :: a.reverse).takeWhile (fun c => !(c == '.'))
        = b.reverse := takeWhile_all_append _ _ _ _ hall (by simp)
    have hlen1 : ¬ (b.reverse.length = (b.reverse ++ '.' :: a.reverse).length) := by
      simp only [List.length_append, List.length_cons, List.length_reverse]
      omega
    have hlen2 : ¬ (b.reverse.length + 1 = (b.reverse ++ '.' :: a.reverse).length) := by
      have hla : a.length ≠ 0 := fun h => ha (List.length_eq_zero.mp h)
      simp only [List.length_append, List.length_cons, List.length_reverse]
      omega
    simp only [extLower, rustExtension, rustExtensionList, String.toList]
    rw [if_neg hne]
    rw [hrev, htw]
    rw [if_neg hlen1, if_neg hlen2]
    simp [lowerStr, String.toList]
  · intro cs hcs
    have hne : cs ≠ ['.', '.'] := by
      intro h; exact hcs (h ▸ List.mem_cons_self '.' ['.'])
    have hall : ∀ x ∈ cs.reverse, (!(x == '.')) = true := by
      intro x hx
      have hxc : x ∈ cs := List.mem_reverse.mp hx
      have hxne : x ≠ '.' := fun h => hcs (h ▸ hxc)
      simp [hxne]
    have htw : cs.reverse.takeWhile (fun c => !(c == '.')) = cs.reverse :=
      takeWhile_all _ _ hall
    simp only [extLower, rustExtension, rustExtensionList, String.toList]
    rw [if_neg hne]
    rw [htw]
    simp [lowerStr]
  · intro c hc
    have hne : ('.' :: c) ≠ ['.', '.'] := by
      intro h
      have hc1 : c = ['.'] := by injection h
      exact hc (hc1 ▸ List.mem_cons_self '.' [])
    have hall : ∀ x ∈ c.reverse, (!(x == '.')) = true := by
      intro x hx
      have hxc : x ∈ c := List.mem_reverse.mp hx
      have hxne : x ≠ '.' := fun h => hc (h ▸ hxc)
      simp [hxne]
    have hrev : ('.' :: c).reverse = c.reverse ++ '.' :: [] := by simp
    have htw : (c.reverse ++ '.' :: []).takeWhile (fun z => !(z == '.'))
        = c.reverse := takeWhile_all_append _ _ _ _ hall (by simp)
    have hlen1 : ¬ (c.reverse.length = (c.reverse ++ '.' :: []).length) := by
      simp only [List.length_append, List.length_cons, List.length_nil]
      omega
    simp only [extLower, rustExtension, rustExtensionList, String.toList]
    rw [if_neg hne]
    rw [hrev, htw]
    rw [if_neg hlen1, if_pos (by simp)]
    simp [lowerStr]

/-- C6 witness: the amended rule applied at concrete basenames — `F.RS` has
extension `rs`, the multi-dot name `a.tar.gz` has the extension after its
final dot, and `README` has the empty extension. -/
theorem c6_witness :
    extLower (String.mk (['F'] ++ '.' :: ['R', 'S'])) = String.mk ['r', 's'] ∧
    extLower (String.mk (['a', '.', 't', 'a', 'r'] ++ '.' :: ['g', 'z']))
      = String.mk ['g', 'z'] ∧
    extLower (String.mk ['R', 'E', 'A', 'D', 'M', 'E']) = "" := by
  exact ⟨c6_amended.1 ['F'] ['R', 'S'] (by decide) (by decide),
    c6_amended.1 ['a', '.', 't', 'a', 'r'] ['g', 'z'] (by decide) (by decide),
    c6_amended.2.1 ['R', 'E', 'A', 'D', 'M', 'E'] (by decide)⟩

/-- C7: size eligibility of a file is decided by truncating integer division
of the byte length by 1024 compared inclusively against the configured
maximum: a single-file scan selects the file exactly when `len / 1024 ≤
maxKb`; in particular a length truncating to exactly the maximum is
included, and the length `1024 * (maxKb + 1)` — one byte past the last
included length, at the next kilobyte boundary — is excluded. -/
theorem c7_thm (cfg : Cfg) (path name : String) (len : Nat)
    (content : Option (List Nat))
    (h1 : excludedName cfg.excl name = false)
    (h2 : 0 < cfg.maxFiles)
    (h3 : cfg.exts.contains (extLower name) = true) :
    ((generate_tree_view path (some [FsNode.file name (some len) content]) cfg).map
        (fun r => r.2)
      = .ok (if len / 1024 ≤ cfg.maxKb then [name] else [])) ∧
    (len / 1024 = cfg.maxKb →
      (generate_tree_view path (some [FsNode.file name (some len) content]) cfg).map
        (fun r => r.2) = .ok [name]) ∧
    (len = 1024 * (cfg.maxKb + 1) →
      (generate_tree_view path (some [FsNode.file name (some len) content]) cfg).map
        (fun r => r.2) = .ok []) := by
  have hmain := c3_amended cfg path name len content h1 h2
  rw [h3] at hmain
  refine ⟨?_, ?_, ?_⟩
  · rw [hmain]
    by_cases h : len / 1024 ≤ cfg.maxKb <;> simp [h]
  · intro h
    rw [hmain]
    simp [h]
  · intro h
    have hgt : ¬ (len / 1024 ≤ cfg.maxKb) := by
      subst h
      rw [Nat.mul_div_cancel_left _ (by norm_num : (0:ℕ) < 1024)]
      omega
    rw [hmain]
    simp [hgt]

/-- C7 witness: the boundary at a concrete input — with a 1 KB limit, a
2047-byte file is included and a 2048-byte file is excluded. -/
theorem c7_witness :
    ((generate_tree_view "r" (some [FsNode.file "a.rs" (some 2047) (some [])])
        ⟨["rs"], 1, [], 1000⟩).map (fun r => r.2)
      = .ok (if 2047 / 1024 ≤ 1 then ["a.rs"] else [])) ∧
    ((generate_tree_view "r" (some [FsNode.file "a.rs" (some 2048) (some [])])
        ⟨["rs"], 1, [], 1000⟩).map (fun r => r.2)
      = .ok []) := by
  exact ⟨(c7_thm ⟨["rs"], 1, [], 1000⟩ "r" "a.rs" 2047 (some [])
      (by decide) (by decide) (by decide)).1,
    (c7_thm ⟨["rs"], 1, [], 1000⟩ "r" "a.rs" 2048 (some [])
      (by decide) (by decide) (by decide)).2.2 (by decide)⟩

/-- C8: the classifier tries the extension table first, then shebang
sniffing, then content sniffing, and on the spec's examples returns:
`rs` → `rust`; `py` → `python`; empty extension with content starting
`#!/usr/bin/env node` → `javascript`; empty extension, no shebang, content
containing `FROM ` → `dockerfile`; unmapped extension `unknownxyz` with
non-shebang content → the empty tag.  Two further instances exhibit the
fixed order: a mapped extension wins over a shebang, and a shebang is tried
for an unmapped non-empty extension before any content sniffing. -/
theorem c8_thm :
    language_for_extension "rs" "fn main" = "rust" ∧
    language_for_extension "py" "x = 1" = "python" ∧
    language_for_extension "" "#!/usr/bin/env node\nlet x = 1\n" = "javascript" ∧
    language_for_extension "" "FROM ubuntu:22.04\nRUN apt-get update\n" = "dockerfile" ∧
    language_for_extension "unknownxyz" "some content\n" = "" ∧
    language_for_extension "md" "#!/usr/bin/env node\n" = "markdown" ∧
    language_for_extension "unknownxyz" "#!/usr/bin/env python3\nprint 1\n" = "python" := by
  exact ⟨by decide, by decide, by decide, by decide, by decide, by decide, by decide⟩

theorem qualPaths_cons_true (cfg : Cfg) (e : REntry) (rest : List WalkItem)
    (h : qualifies cfg (.ok e) = true) :
    qualPaths cfg (.ok e :: rest) = e.relPath :: qualPaths cfg rest := by
  simp [qualPaths, List.filterMap_cons, h]

theorem qualPaths_cons_false (cfg : Cfg) (w : WalkItem) (rest : List WalkItem)
    (h : qualifies cfg w = false) :
    qualPaths cfg (w :: rest) = qualPaths cfg rest := by
  cases w with
  | err => simp [qualPaths, List.filterMap_cons]
  | ok e => simp [qualPaths, List.filterMap_cons, h]

theorem treeLoop_cap_trunc (cfg : Cfg) :
    ∀ (evs : List WalkItem) (count : Nat) (tree : String) (files : List String)
      (t : String) (fs : List String),
      treeLoop cfg evs count tree files = .ok (t, fs) →
      files.length = count →
      count ≤ cfg.maxFiles →
      cfg.maxFiles < count + (qualPaths cfg evs).length →
      fs.length = cfg.maxFiles ∧
      fs = files ++ (qualPaths cfg evs).take (cfg.maxFiles - count) ∧
      ∃ k, k < evs.length ∧
        treeLoop cfg (evs.take k) count tree files = .ok (t, fs) ∧
        count + (qualPaths cfg (evs.take k)).length = cfg.maxFiles := by
  intro evs
  induction evs with
  | nil =>
    intro count tree files t fs h1 h2 h3 h4
    exfalso
    simp [qualPaths] at h4
    omega
  | cons w rest ih =>
    intro count tree files t fs h1 h2 h3 h4
    cases w with
    | err => simp [treeLoop] at h1
    | ok e =>
      obtain ⟨n, rel, d, kind⟩ := e
      cases kind with
      | symlink =>
        have hqf : qualifies cfg (.ok ⟨n, rel, d, .symlink⟩) = false := by
          simp [qualifies, isSymlinkE]
        have hstep : ∀ (l : List WalkItem),
            treeLoop cfg (.ok ⟨n, rel, d, .symlink⟩ :: l) count tree files
              = treeLoop cfg l count tree files := by
          intro l; simp [treeLoop, isSymlinkE]
        rw [hstep] at h1
        rw [qualPaths_cons_false cfg _ rest hqf] at h4
        obtain ⟨hlen, heq, k, hk, hloop, hcnt⟩ := ih count tree files t fs h1 h2 h3 h4
        refine ⟨hlen, ?_, k + 1, Nat.succ_lt_succ hk, ?_, ?_⟩
        · rw [qualPaths_cons_false cfg _ rest hqf]; exact heq
        · rw [List.take_succ_cons, hstep]; exact hloop
        · rw [List.take_succ_cons, qualPaths_cons_false cfg _ (rest.take k) hqf]
          exact hcnt
      | dir =>
        by_cases hexc : isExcludedE cfg ⟨n, rel, d, .dir⟩ = true
        · have hqf : qualifies cfg (.ok ⟨n, rel, d, .dir⟩) = false := by
            simp [qualifies, isSymlinkE, hexc]
          have hstep : ∀ (l : List WalkItem),
              treeLoop cfg (.ok ⟨n, rel, d, .dir⟩ :: l) count tree files
                = treeLoop cfg l count tree files := by
            intro l; simp [treeLoop, isSymlinkE, hexc]
          rw [hstep] at h1
          rw [qualPaths_cons_false cfg _ rest hqf] at h4
          obtain ⟨hlen, heq, k, hk, hloop, hcnt⟩ := ih count tree files t fs h1 h2 h3 h4
          refine ⟨hlen, ?_, k + 1, Nat.succ_lt_succ hk, ?_, ?_⟩
          · rw [qualPaths_cons_false cfg _ rest hqf]; exact heq
          · rw [List.take_succ_cons, hstep]; exact hloop
          · rw [List.take_succ_cons, qualPaths_cons_false cfg _ (rest.take k) hqf]
            exact hcnt
        · have hexcf : isExcludedE cfg ⟨n, rel, d, .dir⟩ = false := by
            simpa using hexc
          have hqf : qualifies cfg (.ok ⟨n, rel, d, .dir⟩) = false := by
            simp [qualifies]
          by_cases hcap : cfg.maxFiles ≤ count
          · have hstep : treeLoop cfg (.ok ⟨n, rel, d, .dir⟩ :: rest) count tree files
                = .ok (tree, files) := by
              simp [treeLoop, isSymlinkE, hexcf, hcap]
            rw [hstep] at h1
            simp only [Except.ok.injEq, Prod.mk.injEq] at h1
            obtain ⟨ht, hf⟩ := h1
            subst ht; subst hf
            have hceq : count = cfg.maxFiles := le_antisymm h3 hcap
            refine ⟨by omega, ?_, 0, Nat.succ_pos _, ?_, ?_⟩
            · rw [show cfg.maxFiles - count = 0 by omega]
              simp
            · simp [treeLoop]
            · simp [qualPaths]; omega
          · have hstep : ∀ (l : List WalkItem),
                treeLoop cfg (.ok ⟨n, rel, d, .dir⟩ :: l) count tree files
                  = treeLoop cfg l count (tree ++ entryDirLine ⟨n, rel, d, .dir⟩) files := by
              intro l; simp [treeLoop, isSymlinkE, hexcf, hcap]
            rw [hstep] at h1
            rw [qualPaths_cons_false cfg _ rest hqf] at h4
            obtain ⟨hlen, heq, k, hk, hloop, hcnt⟩ :=
              ih count (tree ++ entryDirLine ⟨n, rel, d, .dir⟩) files t fs h1 h2 h3 h4
            refine ⟨hlen, ?_, k + 1, Nat.succ_lt_succ hk, ?_, ?_⟩
            · rw [qualPaths_cons_false cfg _ rest hqf]; exact heq
            · rw [List.take_succ_cons, hstep]; exact hloop
            · rw [List.take_succ_cons, qualPaths_cons_false cfg _ (rest.take k) hqf]
              exact hcnt
      | file meta =>
        cases meta with
        | none =>
          by_cases hexc : isExcludedE cfg ⟨n, rel, d, .file none⟩ = true
          · have hqf : qualifies cfg (.ok ⟨n, rel, d, .file none⟩) = false := by
              simp [qualifies, isSymlinkE, hexc]
            have hstep : ∀ (l : List WalkItem),
                treeLoop cfg (.ok ⟨n, rel, d, .file none⟩ :: l) count tree files
                  = treeLoop cfg l count tree files := by
              intro l; simp [treeLoop, isSymlinkE, hexc]
            rw [hstep] at h1
            rw [qualPaths_cons_false cfg _ rest hqf] at h4
            obtain ⟨hlen, heq, k, hk, hloop, hcnt⟩ := ih count tree files t fs h1 h2 h3 h4
            refine ⟨hlen, ?_, k + 1, Nat.succ_lt_succ hk, ?_, ?_⟩
            · rw [qualPaths_cons_false cfg _ rest hqf]; exact heq
            · rw [List.take_succ_cons, hstep]; exact hloop
            · rw [List.take_succ_cons, qualPaths_cons_false cfg _ (rest.take k) hqf]
              exact hcnt
          · have hexcf : isExcludedE cfg ⟨n, rel, d, .file none⟩ = false := by
              simpa using hexc
            by_cases hcap : cfg.maxFiles ≤ count
            · have hstep : treeLoop cfg (.ok ⟨n, rel, d, .file none⟩ :: rest) count tree files
                  = .ok (tree, files) := by
                simp [treeLoop, isSymlinkE, hexcf, hcap]
              rw [hstep] at h1
              simp only [Except.ok.injEq, Prod.mk.injEq] at h1
              obtain ⟨ht, hf⟩ := h1
              subst ht; subst hf
              refine ⟨by omega, ?_, 0, Nat.succ_pos _, ?_, ?_⟩
              · rw [show cfg.maxFiles - count = 0 by omega]
                simp
              · simp [treeLoop]
              · simp [qualPaths]; omega
            · exfalso
              have hstep : treeLoop cfg (.ok ⟨n, rel, d, .file none⟩ :: rest) count tree files
                  = .error () := by
                simp [treeLoop, isSymlinkE, hexcf, hcap]
              rw [hstep] at h1
              simp at h1
        | some len =>
          by_cases hexc : isExcludedE cfg ⟨n, rel, d, .file (some len)⟩ = true
          · have hqf : qualifies cfg (.ok ⟨n, rel, d, .file (some len)⟩) = false := by
              simp [qualifies, isSymlinkE, hexc]
            have hstep : ∀ (l : List WalkItem),
                treeLoop cfg (.ok ⟨n, rel, d, .file (some len)⟩ :: l) count tree files
                  = treeLoop cfg l count tree files := by
              intro l; simp [treeLoop, isSymlinkE, hexc]
            rw [hstep] at h1
            rw [qualPaths_cons_false cfg _ rest hqf] at h4
            obtain ⟨hlen, heq, k, hk, hloop, hcnt⟩ := ih count tree files t fs h1 h2 h3 h4
            refine ⟨hlen, ?_, k + 1, Nat.succ_lt_succ hk, ?_, ?_⟩
            · rw [qualPaths_cons_false cfg _ rest hqf]; exact heq
            · rw [List.take_succ_cons, hstep]; exact hloop
            · rw [List.take_succ_cons, qualPaths_cons_false cfg _ (rest.take k) hqf]
              exact hcnt
          · have hexcf : isExcludedE cfg ⟨n, rel, d, .file (some len)⟩ = false := by
              simpa using hexc
            by_cases hcap : cfg.maxFiles ≤ count
            · have hstep : treeLoop cfg (.ok ⟨n, rel, d, .file (some len)⟩ :: rest)
                  count tree files = .ok (tree, files) := by
                simp [treeLoop, isSymlinkE, hexcf, hcap]
              rw [hstep] at h1
              simp only [Except.ok.injEq, Prod.mk.injEq] at h1
              obtain ⟨ht, hf⟩ := h1
              subst ht; subst hf
              refine ⟨by omega, ?_, 0, Nat.succ_pos _, ?_, ?_⟩
              · rw [show cfg.maxFiles - count = 0 by omega]
                simp
              · simp [treeLoop]
              · simp [qualPaths]; omega
            · by_cases hsel : extLower n ∈ cfg.exts ∧ len / 1024 ≤ cfg.maxKb
              · obtain ⟨hs1, hs2⟩ := hsel
                have hqt : qualifies cfg (.ok ⟨n, rel, d, .file (some len)⟩) = true := by
                  simp [qualifies, isSymlinkE, hexcf, hs1, hs2]
                have hstep : ∀ (l : List WalkItem),
                    treeLoop cfg (.ok ⟨n, rel, d, .file (some len)⟩ :: l) count tree files
                      = treeLoop cfg l (count + 1)
                          (tree ++ entryFileLine ⟨n, rel, d, .file (some len)⟩ len)
                          (files ++ [rel]) := by
                  intro l; simp [treeLoop, isSymlinkE, hexcf, hcap, hs1, hs2]
                rw [hstep] at h1
                rw [qualPaths_cons_true cfg _ rest hqt] at h4
                simp only [List.length_cons] at h4
                have h2s : (files ++ [rel]).length = count + 1 := by simp [h2]
                have h3s : count + 1 ≤ cfg.maxFiles := by omega
                have h4s : cfg.maxFiles < (count + 1) + (qualPaths cfg rest).length := by
                  omega
                obtain ⟨hlen, heq, k, hk, hloop, hcnt⟩ :=
                  ih (count + 1) (tree ++ entryFileLine ⟨n, rel, d, .file (some len)⟩ len)
                    (files ++ [rel]) t fs h1 h2s h3s h4s
                refine ⟨hlen, ?_, k + 1, Nat.succ_lt_succ hk, ?_, ?_⟩
                · rw [qualPaths_cons_true cfg _ rest hqt]
                  obtain ⟨m, hm⟩ : ∃ m, cfg.maxFiles - count = m + 1 :=
                    ⟨cfg.maxFiles - count - 1, by omega⟩
                  rw [hm, List.take_succ_cons]
                  have hm2 : cfg.maxFiles - (count + 1) = m := by omega
                  rw [hm2] at heq
                  simpa [List.append_assoc] using heq
                · rw [List.take_succ_cons, hstep]; exact hloop
                · rw [List.take_succ_cons, qualPaths_cons_true cfg _ (rest.take k) hqt]
                  simp only [List.length_cons]
                  omega
              · have hqf : qualifies cfg (.ok ⟨n, rel, d, .file (some len)⟩) = false := by
                  simp only [qualifies, isSymlinkE]
                  simp [hexcf]
                  intro hm
                  have hnle : ¬ (len / 1024 ≤ cfg.maxKb) := fun hle => hsel ⟨hm, hle⟩
                  omega
                have hstep : ∀ (l : List WalkItem),
                    treeLoop cfg (.ok ⟨n, rel, d, .file (some len)⟩ :: l) count tree files
                      = treeLoop cfg l count tree files := by
                  intro l
                  simp only [treeLoop, isSymlinkE]
                  simp [hexcf, hcap, hsel]
                rw [hstep] at h1
                rw [qualPaths_cons_false cfg _ rest hqf] at h4
                obtain ⟨hlen, heq, k, hk, hloop, hcnt⟩ := ih count tree files t fs h1 h2 h3 h4
                refine ⟨hlen, ?_, k + 1, Nat.succ_lt_succ hk, ?_, ?_⟩
                · rw [qualPaths_cons_false cfg _ rest hqf]; exact heq
                · rw [List.take_succ_cons, hstep]; exact hloop
                · rw [List.take_succ_cons, qualPaths_cons_false cfg _ (rest.take k) hqf]
                  exact hcnt

/-- C5: when the walk contains more qualifying files than the configured
maximum `N = maxFiles`, a successful scan selects exactly `N` files — the
first `N` qualifying files in walk order — and traversal stops: the whole
result (tree text and selection) is already produced by a proper prefix of
the walk containing exactly `N` qualifying files, so no entry encountered
after the cap is rendered or selected. -/
theorem c5_thm (cfg : Cfg) (path : String) (root : Option (List FsNode))
    (t : String) (fs : List String)
    (h1 : generate_tree_view path root cfg = .ok (t, fs))
    (h2 : cfg.maxFiles < (qualPaths cfg (eventsOf cfg.excl root)).length) :
    fs.length = cfg.maxFiles ∧
    fs = (qualPaths cfg (eventsOf cfg.excl root)).take cfg.maxFiles ∧
    ∃ k, k < (eventsOf cfg.excl root).length ∧
      treeLoop cfg ((eventsOf cfg.excl root).take k) 0 (rootLineOf path) []
        = .ok (t, fs) ∧
      (qualPaths cfg ((eventsOf cfg.excl root).take k)).length = cfg.maxFiles := by
  have h := treeLoop_cap_trunc cfg (eventsOf cfg.excl root) 0 (rootLineOf path) []
    t fs h1 rfl (Nat.zero_le _) (by omega)
  obtain ⟨hlen, heq, k, hk, hloop, hcnt⟩ := h
  refine ⟨hlen, by simpa using heq, k, hk, hloop, by omega⟩

/-- C5 witness: with `maxFiles = 1` and two qualifying files, exactly the
first is selected and the result is produced by a strict prefix of the walk
containing one qualifying entry. -/
theorem c5_witness :
    (["a.rs"] : List String).length = 1 ∧
    (["a.rs"] : List String) =
      (qualPaths ⟨["rs"], 100, [], 1⟩
        (eventsOf []
          (some [FsNode.file "a.rs" (some 1) (some []),
                 FsNode.file "b.rs" (some 1) (some [])]))).take 1 ∧
    ∃ k, k < (eventsOf []
        (some [FsNode.file "a.rs" (some 1) (some []),
               FsNode.file "b.rs" (some 1) (some [])])).length ∧
      treeLoop ⟨["rs"], 100, [], 1⟩
        ((eventsOf []
          (some [FsNode.file "a.rs" (some 1) (some []),
                 FsNode.file "b.rs" (some 1) (some [])])).take k) 0
        (rootLineOf "r") [] = .ok ("r/\n├── a.rs [0kb]\n", ["a.rs"]) ∧
      (qualPaths ⟨["rs"], 100, [], 1⟩
        ((eventsOf []
          (some [FsNode.file "a.rs" (some 1) (some []),
                 FsNode.file "b.rs" (some 1) (some [])])).take k)).length = 1 :=
  c5_thm ⟨["rs"], 100, [], 1⟩ "r"
    (some [FsNode.file "a.rs" (some 1) (some []),
           FsNode.file "b.rs" (some 1) (some [])])
    "r/\n├── a.rs [0kb]\n" ["a.rs"] rfl (by decide)

/-- C9: a selected file whose bytes are not valid UTF-8 does not abort the
run — when every selected file is readable the dump succeeds and equals the
header, the tree, and the per-file blocks in selection order — and the
invalid file's block is the empty string, so no content block (and no
replacement characters) for it appears in the document while it keeps its
place in the selection; moreover the walk (hence the tree line with its size
annotation and the occupied cap slot) does not depend on file content at
all. -/
theorem c9_thm (cfg : Cfg) (path : String) (root : Option (List FsNode))
    (t : String) (fs : List String) (f : String) (fb : List Nat)
    (h1 : generate_tree_view path root cfg = .ok (t, fs))
    (h2 : ∀ p ∈ fs, exOk (readFileBytes root p) = true)
    (_h3 : f ∈ fs)
    (h4 : readFileBytes root f = .ok fb)
    (h5 : utf8DecodeStr fb = none) :
    generate_dump path root cfg
      = .ok ("# project structure\n\n" ++ t ++ "\n\n" ++
          String.join (fs.map (blockOf root))) ∧
    blockOf root f = "" ∧
    (∀ (excl : List String) (pre : String) (d : Nat) (nm : String)
       (m : Option Nat) (c c' : Option (List Nat)),
       walkNode excl pre d (.file nm m c) = walkNode excl pre d (.file nm m c')) := by
  refine ⟨?_, ?_, ?_⟩
  · simp [generate_dump, h1, collectBlocks_ok root fs h2]
  · simp [blockOf, fileDump, h4, h5]
  · intro excl pre d nm m c c'
    rfl

/-- C9 witness: the statement at a concrete scan — `a.rs` contains the
invalid byte `0xFF`, `b.rs` is plain ASCII; the dump succeeds, `a.rs`
contributes an empty block yet was selected and counted. -/
theorem c9_witness :
    generate_dump "r" c9Root cfgRs
      = .ok ("# project structure\n\n" ++ "r/\n├── a.rs [0kb]\n├── b.rs [0kb]\n" ++
          "\n\n" ++ String.join ((["a.rs", "b.rs"] : List String).map (blockOf c9Root))) ∧
    blockOf c9Root "a.rs" = "" ∧
    walkNode [] "" 1 (FsNode.file "x" none (some [255]))
      = walkNode [] "" 1 (FsNode.file "x" none (some [])) := by
  have h := c9_thm cfgRs "r" c9Root "r/\n├── a.rs [0kb]\n├── b.rs [0kb]\n"
    ["a.rs", "b.rs"] "a.rs" [255] rfl (by decide) (by decide) rfl rfl
  exact ⟨h.1, h.2.1, h.2.2 [] "" 1 "x" none (some [255]) (some [])⟩

/-- C10 counterexample: at a concrete run with one selected ASCII file, the
assembled document is not the string the claim describes — the code emits an
extra newline after the tree (two blank lines between the last tree line and
the first block header, where the claim prescribes a single blank line). -/
theorem c10_counterexample :
    generate_dump "r" c10Root cfgRs
      = .ok ("# project structure\n\nr/\n├── a.rs [0kb]\n\n\n# file: a.rs\n\n```rust\nlet x = 1\n```\n\n") ∧
    ("# project structure\n\nr/\n├── a.rs [0kb]\n\n\n# file: a.rs\n\n```rust\nlet x = 1\n```\n\n" : String)
      ≠ specClaimDocC10 := by
  exact ⟨rfl, by decide⟩

/-- C10 amended: for every successful run in which all selected files are
readable, the document equals the header line `# project structure`, a blank
line, the tree text, then — after the tree's own trailing newline — one
further blank-line pair (so two blank lines separate the tree from the first
block), then for each selected file in selection order its block: for a
UTF-8-valid file the header `# file: <path>`, a blank line, a fence opened
with the classifier's tag, the raw content, a newline, a closing fence and a
blank-line separator; an invalid-UTF-8 file contributes the empty block. -/
theorem c10_amended (cfg : Cfg) (path : String) (root : Option (List FsNode))
    (t : String) (fs : List String)
    (h1 : generate_tree_view path root cfg = .ok (t, fs))
    (h2 : ∀ p ∈ fs, exOk (readFileBytes root p) = true) :
    generate_dump path root cfg
      = .ok ("# project structure\n\n" ++ t ++ "\n\n" ++
          String.join (fs.map (blockOf root))) ∧
    (∀ (p : String) (bs : List Nat) (c : String),
       readFileBytes root p = .ok bs → utf8DecodeStr bs = some c →
       blockOf root p = "# file: " ++ p ++ "\n\n```" ++
         language_for_extension (extLower (lastComponent p)) c ++ "\n" ++ c ++
         "\n```\n\n") ∧
    (∀ (p : String) (bs : List Nat),
       readFileBytes root p = .ok bs → utf8DecodeStr bs = none →
       blockOf root p = "") := by
  refine ⟨by simp [generate_dump, h1, collectBlocks_ok root fs h2], ?_, ?_⟩
  · intro p bs c hp hc
    simp [blockOf, fileDump, hp, hc]
  · intro p bs hp hc
    simp [blockOf, fileDump, hp, hc]

/-- C10 witness: the amended format at the concrete one-file run of the
counterexample. -/
theorem c10_witness :
    generate_dump "r" c10Root cfgRs
      = .ok ("# project structure\n\n" ++ "r/\n├── a.rs [0kb]\n" ++ "\n\n" ++
          String.join ((["a.rs"] : List String).map (blockOf c10Root))) ∧
    blockOf c10Root "a.rs" = "# file: " ++ "a.rs" ++ "\n\n```" ++
      language_for_extension (extLower (lastComponent "a.rs")) "let x = 1" ++ "\n" ++
      "let x = 1" ++ "\n```\n\n" := by
  have h := c10_amended cfgRs "r" c10Root "r/\n├── a.rs [0kb]\n" ["a.rs"] rfl (by decide)
  exact ⟨h.1, h.2.1 "a.rs" (strBytes "let x = 1") "let x = 1" rfl rfl⟩

end Codump
